import Mathlib

/-!
# Verification of `semaphore-rust` (`src/main.rs`)

A shallow embedding of the futex-based `Semaphore`, the `Mutex<T>` built on
top of it, and the `MutexGuard` release protocol.  The atomic `u32` counter is
modelled as a `Nat` together with explicit `% 2^32` wrap-around where the
source performs `u32` arithmetic; each atomic operation of the source is one
step of a step function and emits an `Event` recording the memory orderings
used at the call site.  Interleaved executions are modelled by small-step
transition relations that pick one thread and apply its next atomic step.
-/

/-- Number of values of a `u32`; the counter field of the semaphore is an
`AtomicU32`, so all stored values are `< U32`. -/
def U32 : Nat := 2 ^ 32

/-- `u32` wrapping increment, as computed by `cur_count + 1` in release mode. -/
def inc32 (x : Nat) : Nat := (x + 1) % U32

/-- `u32` wrapping decrement, as computed by `cur_count - 1` in release mode. -/
def dec32 (x : Nat) : Nat := (x + (U32 - 1)) % U32

/-- The memory orderings that appear in the source
(`Ordering::{Relaxed, Acquire, Release}`). -/
inductive MemOrder where
  | relaxed
  | acquire
  | release
deriving DecidableEq, Repr

/-- One atomic-library call performed by the code, with the orderings and
values at the call site.  `futexWait v` is `wait(&self.counter, v)` of the
`atomic_wait` crate, `wakeOne`/`wakeAll` are `wake_one`/`wake_all`. -/
inductive Event where
  | load (ord : MemOrder) (val : Nat)
  | casOk (succ fail : MemOrder) (expected newVal : Nat)
  | casErr (succ fail : MemOrder) (expected observed : Nat)
  | futexWait (expected : Nat)
  | wakeOne
  | wakeAll
deriving DecidableEq, Repr

/-- Whether an event is a notify (`wake_one` or `wake_all`) call. -/
def Event.isWake : Event → Bool
  | .wakeOne => true
  | .wakeAll => true
  | _ => false

/-- The `Semaphore` struct: `counter: AtomicU32`, `max: u32`. -/
structure Semaphore where
  counter : Nat
  max : Nat
deriving DecidableEq, Repr

namespace Semaphore

/-- `Semaphore::new()`: counter `0`, max `u32::MAX`. -/
def new : Semaphore := { counter := 0, max := U32 - 1 }

/-- `Semaphore::init(count, max)`.  The source `assert!(count <= max)` panic
(a fatal abort, not a recoverable error value) is modelled as `none`; a
successful construction is `some`. -/
def init (count max : Nat) : Option Semaphore :=
  if count ≤ max then some { counter := count, max := max } else none

end Semaphore

/-- Thread-local control state inside `Semaphore::signal`:
`start` is before the initial load (line 42), `check cur` is the top of the
loop with `cur_count = cur` (line 43), `parked` is suspended inside
`wait(&self.counter, self.max)` (line 46), `reload` is about to re-load the
counter after `wait` returned (line 47), `done prev` is the successful return
after exchanging `prev` for `prev + 1` (line 53). -/
inductive SigState where
  | start
  | check (cur : Nat)
  | parked
  | reload
  | done (prev : Nat)
deriving DecidableEq, Repr

/-- One atomic step of `Semaphore::signal` for a thread in state `s`, with
`m` the semaphore's `max` and `c` the current shared counter value.  Returns
the new shared counter, the new local state and the event performed; `none`
when the thread cannot step by itself (parked, or already returned).
`wait(&counter, max)` checks the value and parks atomically: it suspends
only if the counter still equals `max`, otherwise it returns at once. -/
def sigStep (m c : Nat) : SigState → Option (Nat × SigState × Event)
  | .start => some (c, .check c, .load .acquire c)
  | .check cur =>
      if cur = m then
        if c = m then some (c, .parked, .futexWait m)
        else some (c, .reload, .futexWait m)
      else if c = cur then
        some (inc32 cur, .done cur, .casOk .release .relaxed cur (inc32 cur))
      else
        some (c, .check c, .casErr .release .relaxed cur c)
  | .reload => some (c, .check c, .load .acquire c)
  | .parked => none
  | .done _ => none

/-- Thread-local control state inside `Semaphore::wait`, mirroring
`SigState`: `check cur` is the top of the loop (line 63), `parked` is
suspended inside `wait(&self.counter, 0)` (line 66), `done prev` is the
successful return after exchanging `prev` for `prev - 1` (line 73). -/
inductive WaitState where
  | start
  | check (cur : Nat)
  | parked
  | reload
  | done (prev : Nat)
deriving DecidableEq, Repr

/-- One atomic step of `Semaphore::wait` for a thread in state `s`, with `c`
the current shared counter value (`max` is not read by `wait`). -/
def waitStep (c : Nat) : WaitState → Option (Nat × WaitState × Event)
  | .start => some (c, .check c, .load .acquire c)
  | .check cur =>
      if cur = 0 then
        if c = 0 then some (c, .parked, .futexWait 0)
        else some (c, .reload, .futexWait 0)
      else if c = cur then
        some (dec32 cur, .done cur, .casOk .release .relaxed cur (dec32 cur))
      else
        some (c, .check c, .casErr .release .relaxed cur c)
  | .reload => some (c, .check c, .load .acquire c)
  | .parked => none
  | .done _ => none

/-- A thread of a standalone-`Semaphore` system: currently executing a
`signal` call (`Sum.inl`) or a `wait` call (`Sum.inr`). -/
abbrev SemTh : Type := SigState ⊕ WaitState

/-- Global state of a standalone-`Semaphore` system: the shared counter and
the local state of each thread. -/
structure SemSys where
  counter : Nat
  threads : List SemTh

/-- Interleaving semantics for threads calling `signal`/`wait` on one shared
`Semaphore` with maximum `m`: one thread performs its next atomic step, or a
thread whose current call has returned starts a new `signal` or `wait` call.
There is no rule that unparks a parked thread, because neither `signal` nor
`wait` ever calls `wake_one`/`wake_all` (the only wake in the source is in
`MutexGuard::drop`), and a futex-parked thread resumes only when woken. -/
inductive SemStep (m : Nat) : SemSys → SemSys → Prop
  | sig (l₁ l₂ : List SemTh) (c c' : Nat) (s s' : SigState) (e : Event)
      (h : sigStep m c s = some (c', s', e)) :
      SemStep m ⟨c, l₁ ++ Sum.inl s :: l₂⟩ ⟨c', l₁ ++ Sum.inl s' :: l₂⟩
  | wai (l₁ l₂ : List SemTh) (c c' : Nat) (s s' : WaitState) (e : Event)
      (h : waitStep c s = some (c', s', e)) :
      SemStep m ⟨c, l₁ ++ Sum.inr s :: l₂⟩ ⟨c', l₁ ++ Sum.inr s' :: l₂⟩
  | newOp (l₁ l₂ : List SemTh) (c : Nat) (t t' : SemTh)
      (hdone : (∃ v, t = Sum.inl (SigState.done v)) ∨
               (∃ v, t = Sum.inr (WaitState.done v)))
      (hnew : t' = Sum.inl SigState.start ∨ t' = Sum.inr WaitState.start) :
      SemStep m ⟨c, l₁ ++ t :: l₂⟩ ⟨c, l₁ ++ t' :: l₂⟩

/-- Reachability under the standalone-`Semaphore` interleaving semantics. -/
def SemReach (m : Nat) : SemSys → SemSys → Prop :=
  Relation.ReflTransGen (SemStep m)

/-- Fuel-bounded uninterfered execution of `Semaphore::wait` from local state
`s` with counter `c`: returns the final counter and the list of events, or
`none` if the thread parks (no one else can change the counter or wake it) or
the fuel runs out. -/
def runWait (fuel c : Nat) (s : WaitState) : Option (Nat × List Event) :=
  match fuel with
  | 0 => none
  | fuel + 1 =>
      match s with
      | .done _ => some (c, [])
      | s =>
          match waitStep c s with
          | some (c', s', e) => (runWait fuel c' s').map fun r => (r.1, e :: r.2)
          | none => none

/-- `impl Drop for MutexGuard` (lines 129–133): run `self.mutex.semaphore.wait()`
to completion, then `wake_one(&self.mutex.semaphore.counter)`. -/
def guardDrop (fuel c : Nat) : Option (Nat × List Event) :=
  (runWait fuel c .start).map fun r => (r.1, r.2 ++ [Event.wakeOne])

/-- The `Mutex<T>` struct: a `Semaphore` plus the payload stored in the
`UnsafeCell`. -/
structure Mutex (α : Type) where
  semaphore : Semaphore
  data : α
deriving DecidableEq, Repr

/-- `Mutex::new(value)`: constructs the inner semaphore with
`Semaphore::init(0, 1)` and stores `value`. -/
def Mutex.new {α : Type} (value : α) : Option (Mutex α) :=
  (Semaphore.init 0 1).map fun s => { semaphore := s, data := value }

/-- Phase of a thread that repeatedly locks a shared `Mutex`, increments the
payload non-atomically, and drops the guard:
`locking s` is inside `Mutex::lock`, i.e. inside the semaphore's `signal()`;
`reading`/`writing r` are the two halves of the non-atomic increment of the
payload performed while the guard is alive (`r` is the value read);
`unlocking s` is inside the guard's `drop`, in the semaphore's `wait()`;
`waking` is between that `wait()` and the `wake_one` call;
`rest` is outside any call. -/
inductive MuPhase where
  | locking (s : SigState)
  | reading
  | writing (r : Nat)
  | unlocking (s : WaitState)
  | waking
  | rest
deriving DecidableEq, Repr

/-- A thread of the mutex system: its phase and the number of payload writes
(completed increments, one per completed lock/release cycle) it has made. -/
structure MuThread where
  phase : MuPhase
  writes : Nat
deriving DecidableEq, Repr

/-- A thread holds the semaphore permit from its successful CAS `0 → 1`
inside `lock()` until its successful CAS `1 → 0` inside the guard's drop. -/
def MuThread.holding (t : MuThread) : Bool :=
  match t.phase with
  | .reading => true
  | .writing _ => true
  | .unlocking _ => true
  | _ => false

/-- A thread is accessing the payload while performing the non-atomic
increment between lock and release. -/
def MuThread.accessing (t : MuThread) : Bool :=
  match t.phase with
  | .reading => true
  | .writing _ => true
  | _ => false

/-- Number of threads currently holding the permit. -/
def countHold (ts : List MuThread) : Nat := ts.countP fun t => t.holding

/-- Number of threads currently accessing the payload. -/
def countAccess (ts : List MuThread) : Nat := ts.countP fun t => t.accessing

/-- Total number of payload writes completed by all threads. -/
def writeSum (ts : List MuThread) : Nat := (ts.map MuThread.writes).sum

/-- Global state of the mutex system: the semaphore counter (`max = 1`), the
payload value behind the `UnsafeCell`, and the threads. -/
structure MuSys where
  counter : Nat
  payload : Nat
  threads : List MuThread

/-- When a `sigStep` inside `lock()` reaches `done`, `signal()` returns, so
`lock()` returns the guard and the thread enters its critical section. -/
def afterSig (s : SigState) : MuPhase :=
  match s with
  | .done _ => .reading
  | s => .locking s

/-- When a `waitStep` inside the guard's drop reaches `done`, `wait()`
returns and the thread proceeds to the `wake_one` call. -/
def afterWait (s : WaitState) : MuPhase :=
  match s with
  | .done _ => .waking
  | s => .unlocking s

/-- Labels naming the kind of step the mutex system takes. -/
inductive MuLbl where
  | lockOp
  | readOp
  | writeOp
  | unlockOp
  | wakeOp
  | unparkOp
  | startOp
deriving DecidableEq, Repr

/-- Interleaving semantics for threads repeatedly locking a shared `Mutex`
around a non-atomic increment of the payload.  `lock` and `unlock` are the
atomic steps of the inner semaphore's `signal()` (with `max = 1`) and
`wait()`; `read`/`write` are the two halves of the non-atomic increment;
`wake` is the `wake_one` call of the guard's drop; `unparkL`/`unparkW` model
the delivery of a wakeup (from `wake_one`, or spurious) to a futex-parked
thread, over-approximating when wakeups can be delivered; `start` begins a
new lock/release cycle. -/
inductive MuStep : MuLbl → MuSys → MuSys → Prop
  | lock (l₁ l₂ : List MuThread) (w c c' pay : Nat) (s s' : SigState) (e : Event)
      (h : sigStep 1 c s = some (c', s', e)) :
      MuStep .lockOp ⟨c, pay, l₁ ++ ⟨.locking s, w⟩ :: l₂⟩
                     ⟨c', pay, l₁ ++ ⟨afterSig s', w⟩ :: l₂⟩
  | read (l₁ l₂ : List MuThread) (w c pay : Nat) :
      MuStep .readOp ⟨c, pay, l₁ ++ ⟨.reading, w⟩ :: l₂⟩
                     ⟨c, pay, l₁ ++ ⟨.writing pay, w⟩ :: l₂⟩
  | write (l₁ l₂ : List MuThread) (w c pay r : Nat) :
      MuStep .writeOp ⟨c, pay, l₁ ++ ⟨.writing r, w⟩ :: l₂⟩
                      ⟨c, r + 1, l₁ ++ ⟨.unlocking .start, w + 1⟩ :: l₂⟩
  | unlock (l₁ l₂ : List MuThread) (w c c' pay : Nat) (s s' : WaitState) (e : Event)
      (h : waitStep c s = some (c', s', e)) :
      MuStep .unlockOp ⟨c, pay, l₁ ++ ⟨.unlocking s, w⟩ :: l₂⟩
                       ⟨c', pay, l₁ ++ ⟨afterWait s', w⟩ :: l₂⟩
  | wake (l₁ l₂ : List MuThread) (w c pay : Nat) :
      MuStep .wakeOp ⟨c, pay, l₁ ++ ⟨.waking, w⟩ :: l₂⟩
                     ⟨c, pay, l₁ ++ ⟨.rest, w⟩ :: l₂⟩
  | unparkL (l₁ l₂ : List MuThread) (w c pay : Nat) :
      MuStep .unparkOp ⟨c, pay, l₁ ++ ⟨.locking .parked, w⟩ :: l₂⟩
                       ⟨c, pay, l₁ ++ ⟨.locking .reload, w⟩ :: l₂⟩
  | unparkW (l₁ l₂ : List MuThread) (w c pay : Nat) :
      MuStep .unparkOp ⟨c, pay, l₁ ++ ⟨.unlocking .parked, w⟩ :: l₂⟩
                       ⟨c, pay, l₁ ++ ⟨.unlocking .reload, w⟩ :: l₂⟩
  | start (l₁ l₂ : List MuThread) (w c pay : Nat) :
      MuStep .startOp ⟨c, pay, l₁ ++ ⟨.rest, w⟩ :: l₂⟩
                      ⟨c, pay, l₁ ++ ⟨.locking .start, w⟩ :: l₂⟩

/-- Reachability under the mutex interleaving semantics. -/
def MuReach : MuSys → MuSys → Prop :=
  Relation.ReflTransGen fun X X' => ∃ l, MuStep l X X'

/-- The inductive invariant of the mutex system: the semaphore counter equals
the number of permit holders, is at most `1` (binary semaphore), the payload
equals its initial value plus all completed increments, and a thread that has
read the payload but not yet written back holds the current payload value. -/
structure MuInv (p0 : Nat) (X : MuSys) : Prop where
  hold : X.counter = countHold X.threads
  le1 : X.counter ≤ 1
  pay : X.payload = p0 + writeSum X.threads
  wr : ∀ t ∈ X.threads, ∀ r, t.phase = .writing r → r = X.payload

/-! ## Arithmetic helpers -/

theorem inc32_eq {x : Nat} (h : x + 1 < U32) : inc32 x = x + 1 :=
  Nat.mod_eq_of_lt h

theorem dec32_eq {x : Nat} (hx : x ≠ 0) (hlt : x < U32) : dec32 x = x - 1 := by
  unfold dec32
  have hU : 1 ≤ U32 := by norm_num [U32]
  have hsplit : x + (U32 - 1) = (x - 1) + U32 := by omega
  rw [hsplit, Nat.add_mod_right]
  exact Nat.mod_eq_of_lt (by omega)

theorem inc32_zero : inc32 0 = 1 := by
  unfold inc32 U32; norm_num

theorem dec32_one : dec32 1 = 0 := by
  unfold dec32
  have h : 1 + (U32 - 1) = U32 := by norm_num [U32]
  rw [h, Nat.mod_self]


/-! ## Inversion lemmas for the `signal` step function -/

theorem sigStep_done_inv {m c c' v : Nat} {s : SigState} {e : Event}
    (h : sigStep m c s = some (c', .done v, e)) :
    s = .check v ∧ v ≠ m ∧ c = v ∧ c' = inc32 v ∧
      e = .casOk .release .relaxed v (inc32 v) := by
  cases s with
  | start => simp [sigStep] at h
  | parked => simp [sigStep] at h
  | reload => simp [sigStep] at h
  | done p => simp [sigStep] at h
  | check cur =>
      simp only [sigStep] at h
      split_ifs at h with h1 h2 h3
      · simp only [Option.some.injEq, Prod.mk.injEq] at h
        exact absurd h.2.1 (by simp)
      · simp only [Option.some.injEq, Prod.mk.injEq] at h
        exact absurd h.2.1 (by simp)
      · simp only [Option.some.injEq, Prod.mk.injEq, SigState.done.injEq] at h
        obtain ⟨hc', rfl, he⟩ := h
        exact ⟨rfl, h1, h3, hc'.symm, he.symm⟩
      · simp only [Option.some.injEq, Prod.mk.injEq] at h
        exact absurd h.2.1 (by simp)

theorem sigStep_out {m c c' : Nat} {s s' : SigState} {e : Event}
    (h : sigStep m c s = some (c', s', e)) :
    (c' = c ∧ ∀ v, s' ≠ .done v) ∨
      (∃ v, s = .check v ∧ s' = .done v ∧ c = v ∧ v ≠ m ∧ c' = inc32 v) := by
  cases s with
  | start =>
      simp only [sigStep, Option.some.injEq, Prod.mk.injEq] at h
      obtain ⟨h1, h2, -⟩ := h
      left
      refine ⟨h1.symm, fun v hv => ?_⟩
      rw [← h2] at hv
      exact absurd hv (by simp)
  | parked => simp [sigStep] at h
  | reload =>
      simp only [sigStep, Option.some.injEq, Prod.mk.injEq] at h
      obtain ⟨h1, h2, -⟩ := h
      left
      refine ⟨h1.symm, fun v hv => ?_⟩
      rw [← h2] at hv
      exact absurd hv (by simp)
  | done p => simp [sigStep] at h
  | check cur =>
      simp only [sigStep] at h
      split_ifs at h with h1 h2 h3
      · simp only [Option.some.injEq, Prod.mk.injEq] at h
        obtain ⟨ha, hb, -⟩ := h
        left
        refine ⟨ha.symm, fun v hv => ?_⟩
        rw [← hb] at hv
        exact absurd hv (by simp)
      · simp only [Option.some.injEq, Prod.mk.injEq] at h
        obtain ⟨ha, hb, -⟩ := h
        left
        refine ⟨ha.symm, fun v hv => ?_⟩
        rw [← hb] at hv
        exact absurd hv (by simp)
      · simp only [Option.some.injEq, Prod.mk.injEq] at h
        obtain ⟨ha, hb, -⟩ := h
        right
        exact ⟨cur, rfl, hb.symm, h3, h1, ha.symm⟩
      · simp only [Option.some.injEq, Prod.mk.injEq] at h
        obtain ⟨ha, hb, -⟩ := h
        left
        refine ⟨ha.symm, fun v hv => ?_⟩
        rw [← hb] at hv
        exact absurd hv (by simp)

theorem sigStep_parked_iff {m c c' cur : Nat} {s' : SigState} {e : Event}
    (h : sigStep m c (.check cur) = some (c', s', e)) :
    (s' = .parked ↔ cur = m ∧ c = m) ∧ (cur = m → c' = c ∧ e = .futexWait m) := by
  simp only [sigStep] at h
  split_ifs at h with h1 h2 h3
  · simp only [Option.some.injEq, Prod.mk.injEq] at h
    obtain ⟨ha, hb, hc⟩ := h
    refine ⟨?_, fun _ => ⟨ha.symm, hc.symm⟩⟩
    rw [← hb]
    simp [h1, h2]
  · simp only [Option.some.injEq, Prod.mk.injEq] at h
    obtain ⟨ha, hb, hc⟩ := h
    refine ⟨?_, fun _ => ⟨ha.symm, hc.symm⟩⟩
    constructor
    · intro hp
      rw [← hb] at hp
      exact absurd hp (by simp)
    · rintro ⟨-, hcm⟩
      exact absurd hcm h2
  · simp only [Option.some.injEq, Prod.mk.injEq] at h
    obtain ⟨-, hb, -⟩ := h
    refine ⟨?_, fun hcm => absurd hcm h1⟩
    constructor
    · intro hp
      rw [← hb] at hp
      exact absurd hp (by simp)
    · rintro ⟨hcm, -⟩
      exact absurd hcm h1
  · simp only [Option.some.injEq, Prod.mk.injEq] at h
    obtain ⟨-, hb, -⟩ := h
    refine ⟨?_, fun hcm => absurd hcm h1⟩
    constructor
    · intro hp
      rw [← hb] at hp
      exact absurd hp (by simp)
    · rintro ⟨hcm, -⟩
      exact absurd hcm h1

theorem sigStep_no_wake {m c : Nat} {s : SigState} {r : Nat × SigState × Event}
    (h : sigStep m c s = some r) : r.2.2.isWake = false := by
  cases s with
  | start =>
      simp only [sigStep, Option.some.injEq] at h
      rw [← h]
      rfl
  | parked => simp [sigStep] at h
  | reload =>
      simp only [sigStep, Option.some.injEq] at h
      rw [← h]
      rfl
  | done p => simp [sigStep] at h
  | check cur =>
      simp only [sigStep] at h
      split_ifs at h <;> (rw [← Option.some.inj h]; rfl)

theorem sigStep_load_inv {m c c' v : Nat} {s s' : SigState} {ord : MemOrder}
    (h : sigStep m c s = some (c', s', .load ord v)) :
    ord = .acquire ∧ v = c ∧ c' = c ∧ s' = .check c := by
  cases s with
  | start =>
      simp only [sigStep, Option.some.injEq, Prod.mk.injEq, Event.load.injEq] at h
      obtain ⟨h1, h2, h3, h4⟩ := h
      exact ⟨h3.symm, h4.symm, h1.symm, h2.symm⟩
  | parked => simp [sigStep] at h
  | reload =>
      simp only [sigStep, Option.some.injEq, Prod.mk.injEq, Event.load.injEq] at h
      obtain ⟨h1, h2, h3, h4⟩ := h
      exact ⟨h3.symm, h4.symm, h1.symm, h2.symm⟩
  | done p => simp [sigStep] at h
  | check cur =>
      simp only [sigStep] at h
      split_ifs at h <;>
        (simp only [Option.some.injEq, Prod.mk.injEq] at h
         exact absurd h.2.2 (by simp))

/-! ## Inversion lemmas for the `wait` step function -/

theorem waitStep_done_inv {c c' v : Nat} {s : WaitState} {e : Event}
    (h : waitStep c s = some (c', .done v, e)) :
    s = .check v ∧ v ≠ 0 ∧ c = v ∧ c' = dec32 v ∧
      e = .casOk .release .relaxed v (dec32 v) := by
  cases s with
  | start => simp [waitStep] at h
  | parked => simp [waitStep] at h
  | reload => simp [waitStep] at h
  | done p => simp [waitStep] at h
  | check cur =>
      simp only [waitStep] at h
      split_ifs at h with h1 h2 h3
      · simp only [Option.some.injEq, Prod.mk.injEq] at h
        exact absurd h.2.1 (by simp)
      · simp only [Option.some.injEq, Prod.mk.injEq] at h
        exact absurd h.2.1 (by simp)
      · simp only [Option.some.injEq, Prod.mk.injEq, WaitState.done.injEq] at h
        obtain ⟨hc', rfl, he⟩ := h
        exact ⟨rfl, h1, h3, hc'.symm, he.symm⟩
      · simp only [Option.some.injEq, Prod.mk.injEq] at h
        exact absurd h.2.1 (by simp)

theorem waitStep_out {c c' : Nat} {s s' : WaitState} {e : Event}
    (h : waitStep c s = some (c', s', e)) :
    (c' = c ∧ ∀ v, s' ≠ .done v) ∨
      (∃ v, s = .check v ∧ s' = .done v ∧ c = v ∧ v ≠ 0 ∧ c' = dec32 v) := by
  cases s with
  | start =>
      simp only [waitStep, Option.some.injEq, Prod.mk.injEq] at h
      obtain ⟨h1, h2, -⟩ := h
      left
      refine ⟨h1.symm, fun v hv => ?_⟩
      rw [← h2] at hv
      exact absurd hv (by simp)
  | parked => simp [waitStep] at h
  | reload =>
      simp only [waitStep, Option.some.injEq, Prod.mk.injEq] at h
      obtain ⟨h1, h2, -⟩ := h
      left
      refine ⟨h1.symm, fun v hv => ?_⟩
      rw [← h2] at hv
      exact absurd hv (by simp)
  | done p => simp [waitStep] at h
  | check cur =>
      simp only [waitStep] at h
      split_ifs at h with h1 h2 h3
      · simp only [Option.some.injEq, Prod.mk.injEq] at h
        obtain ⟨ha, hb, -⟩ := h
        left
        refine ⟨ha.symm, fun v hv => ?_⟩
        rw [← hb] at hv
        exact absurd hv (by simp)
      · simp only [Option.some.injEq, Prod.mk.injEq] at h
        obtain ⟨ha, hb, -⟩ := h
        left
        refine ⟨ha.symm, fun v hv => ?_⟩
        rw [← hb] at hv
        exact absurd hv (by simp)
      · simp only [Option.some.injEq, Prod.mk.injEq] at h
        obtain ⟨ha, hb, -⟩ := h
        right
        exact ⟨cur, rfl, hb.symm, h3, h1, ha.symm⟩
      · simp only [Option.some.injEq, Prod.mk.injEq] at h
        obtain ⟨ha, hb, -⟩ := h
        left
        refine ⟨ha.symm, fun v hv => ?_⟩
        rw [← hb] at hv
        exact absurd hv (by simp)

theorem waitStep_parked_iff {c c' cur : Nat} {s' : WaitState} {e : Event}
    (h : waitStep c (.check cur) = some (c', s', e)) :
    (s' = .parked ↔ cur = 0 ∧ c = 0) ∧ (cur = 0 → c' = c ∧ e = .futexWait 0) := by
  simp only [waitStep] at h
  split_ifs at h with h1 h2 h3
  · simp only [Option.some.injEq, Prod.mk.injEq] at h
    obtain ⟨ha, hb, hc⟩ := h
    refine ⟨?_, fun _ => ⟨ha.symm, hc.symm⟩⟩
    rw [← hb]
    simp [h1, h2]
  · simp only [Option.some.injEq, Prod.mk.injEq] at h
    obtain ⟨ha, hb, hc⟩ := h
    refine ⟨?_, fun _ => ⟨ha.symm, hc.symm⟩⟩
    constructor
    · intro hp
      rw [← hb] at hp
      exact absurd hp (by simp)
    · rintro ⟨-, hcm⟩
      exact absurd hcm h2
  · simp only [Option.some.injEq, Prod.mk.injEq] at h
    obtain ⟨-, hb, -⟩ := h
    refine ⟨?_, fun hcm => absurd hcm h1⟩
    constructor
    · intro hp
      rw [← hb] at hp
      exact absurd hp (by simp)
    · rintro ⟨hcm, -⟩
      exact absurd hcm h1
  · simp only [Option.some.injEq, Prod.mk.injEq] at h
    obtain ⟨-, hb, -⟩ := h
    refine ⟨?_, fun hcm => absurd hcm h1⟩
    constructor
    · intro hp
      rw [← hb] at hp
      exact absurd hp (by simp)
    · rintro ⟨hcm, -⟩
      exact absurd hcm h1

theorem waitStep_no_wake {c : Nat} {s : WaitState} {r : Nat × WaitState × Event}
    (h : waitStep c s = some r) : r.2.2.isWake = false := by
  cases s with
  | start =>
      simp only [waitStep, Option.some.injEq] at h
      rw [← h]
      rfl
  | parked => simp [waitStep] at h
  | reload =>
      simp only [waitStep, Option.some.injEq] at h
      rw [← h]
      rfl
  | done p => simp [waitStep] at h
  | check cur =>
      simp only [waitStep] at h
      split_ifs at h <;> (rw [← Option.some.inj h]; rfl)

theorem waitStep_load_inv {c c' v : Nat} {s s' : WaitState} {ord : MemOrder}
    (h : waitStep c s = some (c', s', .load ord v)) :
    ord = .acquire ∧ v = c ∧ c' = c ∧ s' = .check c := by
  cases s with
  | start =>
      simp only [waitStep, Option.some.injEq, Prod.mk.injEq, Event.load.injEq] at h
      obtain ⟨h1, h2, h3, h4⟩ := h
      exact ⟨h3.symm, h4.symm, h1.symm, h2.symm⟩
  | parked => simp [waitStep] at h
  | reload =>
      simp only [waitStep, Option.some.injEq, Prod.mk.injEq, Event.load.injEq] at h
      obtain ⟨h1, h2, h3, h4⟩ := h
      exact ⟨h3.symm, h4.symm, h1.symm, h2.symm⟩
  | done p => simp [waitStep] at h
  | check cur =>
      simp only [waitStep] at h
      split_ifs at h <;>
        (simp only [Option.some.injEq, Prod.mk.injEq] at h
         exact absurd h.2.2 (by simp))

/-! ## Further inversion lemmas: CAS failure -/

theorem sigStep_casErr_inv {m c c' cur x y : Nat} {s' : SigState} {so fo : MemOrder}
    (h : sigStep m c (.check cur) = some (c', s', .casErr so fo x y)) :
    so = .release ∧ fo = .relaxed ∧ x = cur ∧ y = c ∧ c' = c ∧ s' = .check c := by
  simp only [sigStep] at h
  split_ifs at h with h1 h2 h3 <;>
    simp only [Option.some.injEq, Prod.mk.injEq] at h
  · exact absurd h.2.2 (by simp)
  · exact absurd h.2.2 (by simp)
  · exact absurd h.2.2 (by simp)
  · obtain ⟨ha, hb, hc⟩ := h
    simp only [Event.casErr.injEq] at hc
    exact ⟨hc.1.symm, hc.2.1.symm, hc.2.2.1.symm, hc.2.2.2.symm, ha.symm, hb.symm⟩

theorem waitStep_casErr_inv {c c' cur x y : Nat} {s' : WaitState} {so fo : MemOrder}
    (h : waitStep c (.check cur) = some (c', s', .casErr so fo x y)) :
    so = .release ∧ fo = .relaxed ∧ x = cur ∧ y = c ∧ c' = c ∧ s' = .check c := by
  simp only [waitStep] at h
  split_ifs at h with h1 h2 h3 <;>
    simp only [Option.some.injEq, Prod.mk.injEq] at h
  · exact absurd h.2.2 (by simp)
  · exact absurd h.2.2 (by simp)
  · exact absurd h.2.2 (by simp)
  · obtain ⟨ha, hb, hc⟩ := h
    simp only [Event.casErr.injEq] at hc
    exact ⟨hc.1.symm, hc.2.1.symm, hc.2.2.1.symm, hc.2.2.2.symm, ha.symm, hb.symm⟩

/-! ## The standalone-semaphore system: bounded counter, parked threads -/

theorem Semaphore.init_some_inv {c m : Nat} {s : Semaphore}
    (h : Semaphore.init c m = some s) : c ≤ m ∧ s.counter = c ∧ s.max = m := by
  unfold Semaphore.init at h
  split_ifs at h with hle
  · exact ⟨hle, by rw [← Option.some.inj h], by rw [← Option.some.inj h]⟩

set_option maxRecDepth 4000 in
theorem semStep_counter_le {m : Nat} {X X' : SemSys} (hU : m < U32)
    (hstep : SemStep m X X') (hc : X.counter ≤ m) : X'.counter ≤ m := by
  cases hstep with
  | sig l₁ l₂ c c' s s' e h =>
      rcases sigStep_out h with ⟨rfl, -⟩ | ⟨v, -, -, hcv, hvm, rfl⟩
      · exact hc
      · have hcm : c ≤ m := hc
        show inc32 v ≤ m
        rw [inc32_eq (by omega)]
        omega
  | wai l₁ l₂ c c' s s' e h =>
      rcases waitStep_out h with ⟨hcc, -⟩ | ⟨v, -, -, hcv, hv0, hc'⟩
      · show c' ≤ m
        rw [hcc]
        exact hc
      · have hcm : c ≤ m := hc
        show c' ≤ m
        rw [hc', dec32_eq hv0 (by omega)]
        omega
  | newOp l₁ l₂ c t t' hdone hnew => exact hc

theorem semReach_counter_le {m : Nat} {X0 X : SemSys} (hU : m < U32)
    (hreach : SemReach m X0 X) (h0 : X0.counter ≤ m) : X.counter ≤ m := by
  induction hreach with
  | refl => exact h0
  | tail _ hs ih => exact semStep_counter_le hU hs ih

theorem semStep_zip {m : Nat} {X X' : SemSys} (hstep : SemStep m X X') :
    ∃ (l₁ l₂ : List SemTh) (t t' : SemTh),
      X.threads = l₁ ++ t :: l₂ ∧ X'.threads = l₁ ++ t' :: l₂ ∧
      t ≠ Sum.inl SigState.parked ∧ t ≠ Sum.inr WaitState.parked := by
  cases hstep with
  | sig l₁ l₂ c c' s s' e h =>
      refine ⟨l₁, l₂, Sum.inl s, Sum.inl s', rfl, rfl, ?_, by simp⟩
      intro hcon
      simp only [Sum.inl.injEq] at hcon
      subst hcon
      simp [sigStep] at h
  | wai l₁ l₂ c c' s s' e h =>
      refine ⟨l₁, l₂, Sum.inr s, Sum.inr s', rfl, rfl, by simp, ?_⟩
      intro hcon
      simp only [Sum.inr.injEq] at hcon
      subst hcon
      simp [waitStep] at h
  | newOp l₁ l₂ c t t' hdone hnew =>
      refine ⟨l₁, l₂, t, t', rfl, rfl, ?_, ?_⟩
      · rcases hdone with ⟨v, rfl⟩ | ⟨v, rfl⟩ <;> simp
      · rcases hdone with ⟨v, rfl⟩ | ⟨v, rfl⟩ <;> simp

theorem semStep_head_stuck {m : Nat} {X X' : SemSys} {t0 : SemTh}
    (hstep : SemStep m X X') (hp : X.threads.head? = some t0)
    (h0 : t0 = Sum.inl SigState.parked ∨ t0 = Sum.inr WaitState.parked) :
    X'.threads.head? = some t0 := by
  obtain ⟨l₁, l₂, t, t', hX, hX', ht1, ht2⟩ := semStep_zip hstep
  cases l₁ with
  | nil =>
      rw [hX] at hp
      simp only [List.nil_append, List.head?_cons, Option.some.injEq] at hp
      subst hp
      rcases h0 with rfl | rfl
      · exact absurd rfl ht1
      · exact absurd rfl ht2
  | cons a l₁ =>
      rw [hX] at hp
      rw [hX']
      simpa using hp

theorem semReach_head_stuck {m : Nat} {X X' : SemSys} {t0 : SemTh}
    (hreach : SemReach m X X') (hp : X.threads.head? = some t0)
    (h0 : t0 = Sum.inl SigState.parked ∨ t0 = Sum.inr WaitState.parked) :
    X'.threads.head? = some t0 := by
  induction hreach with
  | refl => exact hp
  | tail _ hs ih => exact semStep_head_stuck hs ih h0

/-! ## Traces of an uninterfered `wait()` and of the guard's drop -/

theorem runWait_done {n c v : Nat} : runWait (n + 1) c (.done v) = some (c, []) := rfl

theorem runWait_succ_step {n c c₀ : Nat} {s s₀ : WaitState} {e₀ : Event}
    (hs : ∀ v, s ≠ WaitState.done v) (hw : waitStep c s = some (c₀, s₀, e₀)) :
    runWait (n + 1) c s = (runWait n c₀ s₀).map fun r => (r.1, e₀ :: r.2) := by
  cases s with
  | done v => exact absurd rfl (hs v)
  | start => rw [runWait, hw]; simp
  | check cur => rw [runWait, hw]; simp
  | parked => rw [runWait, hw]; simp
  | reload => rw [runWait, hw]; simp

theorem runWait_succ_none {n c : Nat} {s : WaitState}
    (hs : ∀ v, s ≠ WaitState.done v) (hw : waitStep c s = none) :
    runWait (n + 1) c s = none := by
  cases s with
  | done v => exact absurd rfl (hs v)
  | start => rw [runWait, hw]; simp
  | check cur => rw [runWait, hw]; simp
  | parked => rw [runWait, hw]; simp
  | reload => rw [runWait, hw]; simp

theorem runWait_no_wake :
    ∀ (fuel : Nat) {c : Nat} {s : WaitState} {c' : Nat} {tr : List Event},
      runWait fuel c s = some (c', tr) → ∀ e ∈ tr, e.isWake = false := by
  intro fuel
  induction fuel with
  | zero => intro c s c' tr h; simp [runWait] at h
  | succ n ih =>
      intro c s c' tr h e he
      by_cases hd : ∃ v, s = WaitState.done v
      · obtain ⟨v, rfl⟩ := hd
        rw [runWait_done] at h
        simp only [Option.some.injEq, Prod.mk.injEq] at h
        obtain ⟨-, htr⟩ := h
        rw [← htr] at he
        simp at he
      · push_neg at hd
        cases hw : waitStep c s with
        | none => rw [runWait_succ_none hd hw] at h; exact absurd h (by simp)
        | some r =>
            obtain ⟨c₀, s₀, e₀⟩ := r
            rw [runWait_succ_step hd hw] at h
            rw [Option.map_eq_some'] at h
            obtain ⟨⟨cf, tr₀⟩, hrun, heq⟩ := h
            simp only [Prod.mk.injEq] at heq
            obtain ⟨-, htr⟩ := heq
            rw [← htr] at he
            rcases List.mem_cons.1 he with rfl | he₂
            · exact waitStep_no_wake hw
            · exact ih hrun e he₂

theorem runWait_cas_last :
    ∀ (fuel : Nat) {c : Nat} {s : WaitState} {c' : Nat} {tr : List Event},
      runWait fuel c s = some (c', tr) → (∀ v, s ≠ WaitState.done v) →
      ∃ tr₁ v, tr = tr₁ ++ [Event.casOk .release .relaxed v (dec32 v)] ∧
        c' = dec32 v ∧ v ≠ 0 := by
  intro fuel
  induction fuel with
  | zero => intro c s c' tr h hs; simp [runWait] at h
  | succ n ih =>
      intro c s c' tr h hs
      cases hw : waitStep c s with
      | none => rw [runWait_succ_none hs hw] at h; exact absurd h (by simp)
      | some r =>
          obtain ⟨c₀, s₀, e₀⟩ := r
          rw [runWait_succ_step hs hw] at h
          rw [Option.map_eq_some'] at h
          obtain ⟨⟨cf, tr₀⟩, hrun, heq⟩ := h
          simp only [Prod.mk.injEq] at heq
          obtain ⟨hcf, htr⟩ := heq
          by_cases hd : ∃ v, s₀ = WaitState.done v
          · obtain ⟨v, rfl⟩ := hd
            cases n with
            | zero => simp [runWait] at hrun
            | succ k =>
                rw [runWait_done] at hrun
                simp only [Option.some.injEq, Prod.mk.injEq] at hrun
                obtain ⟨hc0, htr0⟩ := hrun
                obtain ⟨-, hv0, hcv, hc0', he0⟩ := waitStep_done_inv hw
                refine ⟨[], v, ?_, ?_, hv0⟩
                · rw [← htr, ← htr0, he0]
                  rfl
                · rw [← hcf, ← hc0]
                  exact hc0'
          · push_neg at hd
            obtain ⟨tr₁, v, htr₀, hcf', hv0⟩ := ih hrun hd
            refine ⟨e₀ :: tr₁, v, ?_, ?_, hv0⟩
            · rw [← htr, htr₀]
              rfl
            · rw [← hcf]
              exact hcf'

theorem guardDrop_eq {fuel c c' : Nat} {tr : List Event}
    (h : guardDrop fuel c = some (c', tr)) :
    ∃ tr₀, runWait fuel c .start = some (c', tr₀) ∧ tr = tr₀ ++ [Event.wakeOne] := by
  unfold guardDrop at h
  rw [Option.map_eq_some'] at h
  obtain ⟨⟨cf, tr₀⟩, hrun, heq⟩ := h
  simp only [Prod.mk.injEq] at heq
  obtain ⟨hcf, htr⟩ := heq
  rw [← hcf]
  exact ⟨tr₀, hrun, htr.symm⟩

/-! ## Mutex-system helper lemmas -/

theorem afterSig_ne_done {s : SigState} (h : ∀ v, s ≠ SigState.done v) :
    afterSig s = .locking s := by
  cases s with
  | done v => exact absurd rfl (h v)
  | start => rfl
  | check cur => rfl
  | parked => rfl
  | reload => rfl

theorem afterWait_ne_done {s : WaitState} (h : ∀ v, s ≠ WaitState.done v) :
    afterWait s = .unlocking s := by
  cases s with
  | done v => exact absurd rfl (h v)
  | start => rfl
  | check cur => rfl
  | parked => rfl
  | reload => rfl

theorem holding_of_writing {t : MuThread} {r : Nat} (h : t.phase = .writing r) :
    t.holding = true := by
  obtain ⟨ph, w⟩ := t
  simp only at h
  subst h
  rfl

theorem holding_of_accessing {t : MuThread} (h : t.accessing = true) :
    t.holding = true := by
  obtain ⟨ph, w⟩ := t
  cases ph <;> simp_all [MuThread.accessing, MuThread.holding]

theorem countHold_zip (l₁ l₂ : List MuThread) (t : MuThread) :
    countHold (l₁ ++ t :: l₂) =
      countHold l₁ + (if t.holding = true then 1 else 0) + countHold l₂ := by
  cases h : t.holding <;>
    simp [countHold, List.countP_append, List.countP_cons, h] <;> omega

theorem writeSum_zip (l₁ l₂ : List MuThread) (t : MuThread) :
    writeSum (l₁ ++ t :: l₂) = writeSum l₁ + t.writes + writeSum l₂ := by
  simp [writeSum, List.map_append, List.sum_append, List.map_cons, List.sum_cons]
  omega

theorem countAccess_le_countHold (ts : List MuThread) :
    countAccess ts ≤ countHold ts :=
  List.countP_mono_left fun t _ h => holding_of_accessing h

theorem no_holding_sides {c : Nat} {l₁ l₂ : List MuThread} {t : MuThread}
    (ht : t.holding = true)
    (hhold : c = countHold (l₁ ++ t :: l₂)) (hle : c ≤ 1) :
    countHold l₁ = 0 ∧ countHold l₂ = 0 := by
  rw [countHold_zip, ht] at hhold
  simp only [if_pos] at hhold
  omega

theorem not_writing_of_countHold_zero {l : List MuThread} (h : countHold l = 0) :
    ∀ t ∈ l, ∀ r, t.phase ≠ .writing r := by
  intro t ht r hw
  have hnot := (List.countP_eq_zero.1 h) t ht
  exact hnot (holding_of_writing hw)

/-- Replacing the phase of one thread by a phase with the same holding status
and no new pending write preserves the invariant when counter, payload and
write count are untouched. -/
theorem MuInv.replace_mid {p0 c pay w : Nat} {l₁ l₂ : List MuThread}
    {ph ph' : MuPhase}
    (hI : MuInv p0 ⟨c, pay, l₁ ++ ⟨ph, w⟩ :: l₂⟩)
    (hhold : (MuThread.holding ⟨ph', w⟩) = (MuThread.holding ⟨ph, w⟩))
    (hnw : ∀ r, ph' = .writing r → r = pay) :
    MuInv p0 ⟨c, pay, l₁ ++ ⟨ph', w⟩ :: l₂⟩ := by
  obtain ⟨h1, h2, h3, h4⟩ := hI
  refine ⟨?_, h2, ?_, ?_⟩
  · show c = countHold (l₁ ++ ⟨ph', w⟩ :: l₂)
    rw [countHold_zip, hhold, ← countHold_zip]
    exact h1
  · show pay = p0 + writeSum (l₁ ++ ⟨ph', w⟩ :: l₂)
    rw [writeSum_zip]
    rw [writeSum_zip] at h3
    exact h3
  · intro t ht r htw
    rcases List.mem_append.1 ht with hmem | hmem
    · exact h4 t (List.mem_append.2 (Or.inl hmem)) r htw
    · rcases List.mem_cons.1 hmem with rfl | hmem₂
      · exact hnw r htw
      · exact h4 t (List.mem_append.2 (Or.inr (List.mem_cons.2 (Or.inr hmem₂)))) r htw

/-- The inductive invariant is preserved by every step of the mutex system. -/
theorem muStep_inv {p0 : Nat} {lbl : MuLbl} {X X' : MuSys}
    (hstep : MuStep lbl X X') (hI : MuInv p0 X) : MuInv p0 X' := by
  cases hstep with
  | lock l₁ l₂ w c c' pay s s' e h =>
      rcases sigStep_out h with ⟨rfl, hnd⟩ | ⟨v, hs, hs', hcv, hvm, hc'⟩
      · rw [afterSig_ne_done hnd]
        exact hI.replace_mid rfl (by intro r hr; exact absurd hr (by simp))
      · subst hs'
        obtain ⟨hhold, hle1, hpay, hwr⟩ := hI
        have hle1' : c ≤ 1 := hle1
        have hc0 : c = 0 := by omega
        have hc'1 : c' = 1 := by rw [hc', ← hcv, hc0, inc32_zero]
        have hmidhold : (MuThread.holding ⟨.locking s, w⟩) = false := rfl
        have hsides : countHold l₁ = 0 ∧ countHold l₂ = 0 := by
          have hh : c = countHold (l₁ ++ ⟨.locking s, w⟩ :: l₂) := hhold
          rw [countHold_zip, hmidhold] at hh
          simp only [Bool.false_eq_true, if_false] at hh
          omega
        refine ⟨?_, ?_, ?_, ?_⟩
        · show c' = countHold (l₁ ++ ⟨afterSig (.done v), w⟩ :: l₂)
          rw [countHold_zip, hc'1]
          have : (MuThread.holding ⟨afterSig (.done v), w⟩) = true := rfl
          rw [this]
          simp only [if_pos]
          omega
        · show c' ≤ 1
          omega
        · show pay = p0 + writeSum (l₁ ++ ⟨afterSig (.done v), w⟩ :: l₂)
          have hp : pay = p0 + writeSum (l₁ ++ ⟨.locking s, w⟩ :: l₂) := hpay
          rw [writeSum_zip] at hp
          rw [writeSum_zip]
          exact hp
        · intro t ht r htw
          rcases List.mem_append.1 ht with hmem | hmem
          · exact absurd htw (not_writing_of_countHold_zero hsides.1 t hmem r)
          · rcases List.mem_cons.1 hmem with rfl | hmem₂
            · exact absurd htw (by simp [afterSig])
            · exact absurd htw (not_writing_of_countHold_zero hsides.2 t hmem₂ r)
  | read l₁ l₂ w c pay =>
      exact hI.replace_mid rfl (by intro r hr; simp only [MuPhase.writing.injEq] at hr; exact hr.symm)
  | write l₁ l₂ w c pay r =>
      obtain ⟨hhold, hle1, hpay, hwr⟩ := hI
      have hle1' : c ≤ 1 := hle1
      have hrpay : r = pay :=
        hwr ⟨.writing r, w⟩
          (List.mem_append.2 (Or.inr (List.mem_cons.2 (Or.inl rfl)))) r rfl
      have hmidhold : (MuThread.holding ⟨.writing r, w⟩) = true := rfl
      have hsides : countHold l₁ = 0 ∧ countHold l₂ = 0 :=
        no_holding_sides hmidhold hhold hle1'
      refine ⟨?_, hle1, ?_, ?_⟩
      · show c = countHold (l₁ ++ ⟨.unlocking .start, w + 1⟩ :: l₂)
        have hh : c = countHold (l₁ ++ ⟨.writing r, w⟩ :: l₂) := hhold
        rw [countHold_zip, hmidhold] at hh
        rw [countHold_zip]
        have : (MuThread.holding ⟨.unlocking .start, w + 1⟩) = true := rfl
        rw [this]
        exact hh
      · show r + 1 = p0 + writeSum (l₁ ++ ⟨.unlocking .start, w + 1⟩ :: l₂)
        have hp : pay = p0 + writeSum (l₁ ++ ⟨.writing r, w⟩ :: l₂) := hpay
        rw [writeSum_zip] at hp
        rw [writeSum_zip]
        simp only at hp ⊢
        omega
      · intro t ht r' htw
        rcases List.mem_append.1 ht with hmem | hmem
        · exact absurd htw (not_writing_of_countHold_zero hsides.1 t hmem r')
        · rcases List.mem_cons.1 hmem with rfl | hmem₂
          · exact absurd htw (by simp)
          · exact absurd htw (not_writing_of_countHold_zero hsides.2 t hmem₂ r')
  | unlock l₁ l₂ w c c' pay s s' e h =>
      rcases waitStep_out h with ⟨rfl, hnd⟩ | ⟨v, hs, hs', hcv, hv0, hc'⟩
      · rw [afterWait_ne_done hnd]
        exact hI.replace_mid rfl (by intro r hr; exact absurd hr (by simp))
      · subst hs'
        obtain ⟨hhold, hle1, hpay, hwr⟩ := hI
        have hle1' : c ≤ 1 := hle1
        have hc1 : c = 1 := by omega
        have hc'0 : c' = 0 := by rw [hc', ← hcv, hc1, dec32_one]
        have hmidhold : (MuThread.holding ⟨.unlocking s, w⟩) = true := rfl
        have hsides : countHold l₁ = 0 ∧ countHold l₂ = 0 :=
          no_holding_sides hmidhold hhold hle1'
        refine ⟨?_, ?_, ?_, ?_⟩
        · show c' = countHold (l₁ ++ ⟨afterWait (.done v), w⟩ :: l₂)
          rw [countHold_zip, hc'0]
          have : (MuThread.holding ⟨afterWait (.done v), w⟩) = false := rfl
          rw [this]
          simp only [Bool.false_eq_true, if_false]
          omega
        · show c' ≤ 1
          omega
        · show pay = p0 + writeSum (l₁ ++ ⟨afterWait (.done v), w⟩ :: l₂)
          have hp : pay = p0 + writeSum (l₁ ++ ⟨.unlocking s, w⟩ :: l₂) := hpay
          rw [writeSum_zip] at hp
          rw [writeSum_zip]
          exact hp
        · intro t ht r htw
          rcases List.mem_append.1 ht with hmem | hmem
          · exact absurd htw (not_writing_of_countHold_zero hsides.1 t hmem r)
          · rcases List.mem_cons.1 hmem with rfl | hmem₂
            · exact absurd htw (by simp [afterWait])
            · exact absurd htw (not_writing_of_countHold_zero hsides.2 t hmem₂ r)
  | wake l₁ l₂ w c pay =>
      exact hI.replace_mid rfl (by intro r hr; exact absurd hr (by simp))
  | unparkL l₁ l₂ w c pay =>
      exact hI.replace_mid rfl (by intro r hr; exact absurd hr (by simp))
  | unparkW l₁ l₂ w c pay =>
      exact hI.replace_mid rfl (by intro r hr; exact absurd hr (by simp))
  | start l₁ l₂ w c pay =>
      exact hI.replace_mid rfl (by intro r hr; exact absurd hr (by simp))

/-- The invariant holds at every reachable state of the mutex system. -/
theorem muReach_inv {p0 : Nat} {X0 X : MuSys} (hreach : MuReach X0 X)
    (h0 : MuInv p0 X0) : MuInv p0 X := by
  induction hreach with
  | refl => exact h0
  | tail _ hs ih =>
      obtain ⟨lbl, hstep⟩ := hs
      exact muStep_inv hstep ih

/-- The invariant holds at the initial state: `n` threads at rest, counter
`0` (the mutex starts unlocked: `Semaphore::init(0, 1)`), payload `p0`. -/
theorem muInv_init (p0 n : Nat) :
    MuInv p0 ⟨0, p0, List.replicate n ⟨.rest, 0⟩⟩ := by
  refine ⟨?_, by norm_num, ?_, ?_⟩
  · show 0 = countHold (List.replicate n ⟨.rest, 0⟩)
    symm
    rw [countHold, List.countP_eq_zero]
    intro a ha
    rw [List.eq_of_mem_replicate ha]
    simp [MuThread.holding]
  · show p0 = p0 + writeSum (List.replicate n ⟨.rest, 0⟩)
    simp [writeSum, List.map_replicate, List.sum_replicate]
  · intro t ht r htw
    rw [List.eq_of_mem_replicate ht] at htw
    simp at htw

/-- Under the invariant, the counter changes only at a successful CAS:
`0 → 1` inside `lock()` or `1 → 0` inside the guard's release. -/
theorem muStep_counter_change {p0 : Nat} {lbl : MuLbl} {X X' : MuSys}
    (hstep : MuStep lbl X X') (hI : MuInv p0 X) (hne : X'.counter ≠ X.counter) :
    (lbl = .lockOp ∧ X.counter = 0 ∧ X'.counter = 1) ∨
    (lbl = .unlockOp ∧ X.counter = 1 ∧ X'.counter = 0) := by
  cases hstep with
  | lock l₁ l₂ w c c' pay s s' e h =>
      rcases sigStep_out h with ⟨rfl, -⟩ | ⟨v, -, -, hcv, hvm, hc'⟩
      · exact absurd rfl hne
      · left
        have hle1 : c ≤ 1 := hI.le1
        have hc0 : c = 0 := by omega
        exact ⟨rfl, hc0, by show c' = 1; rw [hc', ← hcv, hc0, inc32_zero]⟩
  | read l₁ l₂ w c pay => exact absurd rfl hne
  | write l₁ l₂ w c pay r => exact absurd rfl hne
  | unlock l₁ l₂ w c c' pay s s' e h =>
      rcases waitStep_out h with ⟨rfl, -⟩ | ⟨v, -, -, hcv, hv0, hc'⟩
      · exact absurd rfl hne
      · right
        have hle1 : c ≤ 1 := hI.le1
        have hc1 : c = 1 := by omega
        exact ⟨rfl, hc1, by show c' = 0; rw [hc', ← hcv, hc1, dec32_one]⟩
  | wake l₁ l₂ w c pay => exact absurd rfl hne
  | unparkL l₁ l₂ w c pay => exact absurd rfl hne
  | unparkW l₁ l₂ w c pay => exact absurd rfl hne
  | start l₁ l₂ w c pay => exact absurd rfl hne

/-! ## The claims -/

/-- C1: `Semaphore::signal` follows exactly the specified algorithm: every
load of the counter is an Acquire load of the current value that leaves the
counter unchanged and returns to the top of the loop; from the top of the
loop the thread parks exactly when the observed value and the counter both
equal `max`, keyed to `counter == max`; a CAS failure uses success ordering
Release and failure ordering Relaxed, fails against the expected observed
value, leaves the counter unchanged and retries with the newly observed
value; the loop reaches the returned state only via a successful exchange,
which steps the counter from the exchanged value to that value plus one; and
a parked or returned thread takes no further step by itself. -/
theorem signal_algorithm_spec :
    (∀ m c c' v : Nat, ∀ s s' : SigState, ∀ ord : MemOrder,
        sigStep m c s = some (c', s', .load ord v) →
        ord = .acquire ∧ v = c ∧ c' = c ∧ s' = .check c) ∧
    (∀ m c c' cur : Nat, ∀ s' : SigState, ∀ e : Event,
        sigStep m c (.check cur) = some (c', s', e) →
        ((s' = .parked ↔ cur = m ∧ c = m) ∧ (cur = m → c' = c ∧ e = .futexWait m))) ∧
    (∀ m c c' cur x y : Nat, ∀ s' : SigState, ∀ so fo : MemOrder,
        sigStep m c (.check cur) = some (c', s', .casErr so fo x y) →
        so = .release ∧ fo = .relaxed ∧ x = cur ∧ y = c ∧ c' = c ∧ s' = .check y) ∧
    (∀ m c c' v : Nat, ∀ s : SigState, ∀ e : Event,
        sigStep m c s = some (c', .done v, e) →
        s = .check v ∧ v ≠ m ∧ c = v ∧ c' = inc32 v ∧
          e = .casOk .release .relaxed v (inc32 v)) ∧
    (∀ m c : Nat, sigStep m c .parked = none ∧ ∀ v, sigStep m c (.done v) = none) := by
  refine ⟨?_, ?_, ?_, ?_, ?_⟩
  · intro m c c' v s s' ord h
    exact sigStep_load_inv h
  · intro m c c' cur s' e h
    exact sigStep_parked_iff h
  · intro m c c' cur x y s' so fo h
    obtain ⟨h1, h2, h3, h4, h5, h6⟩ := sigStep_casErr_inv h
    refine ⟨h1, h2, h3, h4, h5, ?_⟩
    rw [h6, h4]
  · intro m c c' v s e h
    exact sigStep_done_inv h
  · intro m c
    exact ⟨rfl, fun v => rfl⟩

theorem signal_algorithm_spec_witness :
    SigState.check 2 = SigState.check 2 ∧ 2 ≠ 3 ∧ 2 = 2 ∧ 3 = inc32 2 ∧
      Event.casOk .release .relaxed 2 3 = Event.casOk .release .relaxed 2 (inc32 2) :=
  signal_algorithm_spec.2.2.2.1 3 2 3 2 (.check 2)
    (.casOk .release .relaxed 2 3) (by decide)

/-- C2: `Semaphore::wait` is the exact mirror of `signal`: the same
Acquire-load / CAS-retry loop with success ordering Release and failure
ordering Relaxed, parking exactly when the observed value and the counter
both equal `0` (keyed to `counter == 0`), and returning only via a
successful exchange from the observed value to that value minus one. -/
theorem wait_algorithm_spec :
    (∀ c c' v : Nat, ∀ s s' : WaitState, ∀ ord : MemOrder,
        waitStep c s = some (c', s', .load ord v) →
        ord = .acquire ∧ v = c ∧ c' = c ∧ s' = .check c) ∧
    (∀ c c' cur : Nat, ∀ s' : WaitState, ∀ e : Event,
        waitStep c (.check cur) = some (c', s', e) →
        ((s' = .parked ↔ cur = 0 ∧ c = 0) ∧ (cur = 0 → c' = c ∧ e = .futexWait 0))) ∧
    (∀ c c' cur x y : Nat, ∀ s' : WaitState, ∀ so fo : MemOrder,
        waitStep c (.check cur) = some (c', s', .casErr so fo x y) →
        so = .release ∧ fo = .relaxed ∧ x = cur ∧ y = c ∧ c' = c ∧ s' = .check y) ∧
    (∀ c c' v : Nat, ∀ s : WaitState, ∀ e : Event,
        waitStep c s = some (c', .done v, e) →
        s = .check v ∧ v ≠ 0 ∧ c = v ∧ c' = dec32 v ∧
          e = .casOk .release .relaxed v (dec32 v)) ∧
    (∀ c : Nat, waitStep c .parked = none ∧ ∀ v, waitStep c (.done v) = none) := by
  refine ⟨?_, ?_, ?_, ?_, ?_⟩
  · intro c c' v s s' ord h
    exact waitStep_load_inv h
  · intro c c' cur s' e h
    exact waitStep_parked_iff h
  · intro c c' cur x y s' so fo h
    obtain ⟨h1, h2, h3, h4, h5, h6⟩ := waitStep_casErr_inv h
    refine ⟨h1, h2, h3, h4, h5, ?_⟩
    rw [h6, h4]
  · intro c c' v s e h
    exact waitStep_done_inv h
  · intro c
    exact ⟨rfl, fun v => rfl⟩

theorem wait_algorithm_spec_witness :
    WaitState.check 1 = WaitState.check 1 ∧ 1 ≠ 0 ∧ 1 = 1 ∧ 0 = dec32 1 ∧
      Event.casOk .release .relaxed 1 0 = Event.casOk .release .relaxed 1 (dec32 1) :=
  wait_algorithm_spec.2.2.2.1 1 0 1 (.check 1)
    (.casOk .release .relaxed 1 0) (by decide)

/-- C3: `Semaphore::init(count, max)` hits the fatal assertion (modelled as
`none`) exactly when `count > max`; otherwise it returns a semaphore whose
counter is `count` and whose max is `max`.  Concretely `init(5, 3)` aborts
while `init(3, 5)` and `init(3, 3)` succeed with counter `3`. -/
theorem init_validation :
    (∀ c m : Nat, Semaphore.init c m = none ↔ m < c) ∧
    (∀ c m : Nat, ∀ s : Semaphore, Semaphore.init c m = some s →
        s.counter = c ∧ s.max = m) ∧
    Semaphore.init 5 3 = none ∧
    Semaphore.init 3 5 = some { counter := 3, max := 5 } ∧
    Semaphore.init 3 3 = some { counter := 3, max := 3 } := by
  refine ⟨?_, ?_, by decide, by decide, by decide⟩
  · intro c m
    unfold Semaphore.init
    split_ifs with h
    · constructor
      · intro hcon
        exact absurd hcon (by simp)
      · intro hlt
        exact absurd hlt (by omega)
    · constructor
      · intro _
        omega
      · intro _
        rfl
  · intro c m s h
    exact ⟨(Semaphore.init_some_inv h).2.1, (Semaphore.init_some_inv h).2.2⟩

theorem init_validation_witness :
    (⟨3, 5⟩ : Semaphore).counter = 3 ∧ (⟨3, 5⟩ : Semaphore).max = 5 :=
  init_validation.2.1 3 5 ⟨3, 5⟩ (by decide)

/-- C4: for a semaphore built by `init(c0, m)` (so `c0 ≤ m`), the counter
stays in `[0, m]` in every state reachable under any interleaving of
`signal` and `wait` calls by any number of threads: `signal` only exchanges
`observed → observed + 1` when `observed ≠ m` and `wait` only exchanges
`observed → observed - 1` when `observed ≠ 0` (the lower bound `0 ≤ counter`
is inherent in the `u32` representation, modelled by `Nat`). -/
theorem counter_bounded_invariant :
    ∀ (c0 m : Nat) (s : Semaphore), Semaphore.init c0 m = some s → m < U32 →
      ∀ (ts : List SemTh) (X : SemSys),
        SemReach m ⟨s.counter, ts⟩ X → X.counter ≤ m := by
  intro c0 m s hinit hU ts X hreach
  obtain ⟨hle, hc, -⟩ := Semaphore.init_some_inv hinit
  exact semReach_counter_le hU hreach (show s.counter ≤ m by rw [hc]; exact hle)

theorem counter_bounded_invariant_witness : (⟨1, []⟩ : SemSys).counter ≤ 1 :=
  counter_bounded_invariant 1 1 ⟨1, 1⟩ (by decide) (by norm_num [U32]) []
    ⟨1, []⟩ Relation.ReflTransGen.refl

/-- C5: `Mutex::new(value)` builds its semaphore by `Semaphore::init(0, 1)`
and stores the payload; `lock()` is the semaphore's `signal()` with
`max = 1`, so it parks exactly when the observed and actual counter are `1`
(already locked); in every reachable state of the mutex system the counter
is `0` (unlocked) or `1` (locked), and the only counter transitions are
`0 → 1` at a lock step and `1 → 0` at a guard-release step. -/
theorem mutex_binary_protocol :
    (∀ (α : Type) (v : α), Mutex.new v = some ⟨⟨0, 1⟩, v⟩) ∧
    (∀ c c' cur : Nat, ∀ s' : SigState, ∀ e : Event,
        sigStep 1 c (.check cur) = some (c', s', e) →
        (s' = .parked ↔ cur = 1 ∧ c = 1)) ∧
    (∀ p0 n : Nat, ∀ X : MuSys,
        MuReach ⟨0, p0, List.replicate n ⟨.rest, 0⟩⟩ X →
        X.counter = 0 ∨ X.counter = 1) ∧
    (∀ p0 n : Nat, ∀ X X' : MuSys, ∀ lbl : MuLbl,
        MuReach ⟨0, p0, List.replicate n ⟨.rest, 0⟩⟩ X → MuStep lbl X X' →
        X'.counter ≠ X.counter →
        (lbl = .lockOp ∧ X.counter = 0 ∧ X'.counter = 1) ∨
        (lbl = .unlockOp ∧ X.counter = 1 ∧ X'.counter = 0)) := by
  refine ⟨?_, ?_, ?_, ?_⟩
  · intro α v
    rfl
  · intro c c' cur s' e h
    exact (sigStep_parked_iff h).1
  · intro p0 n X hreach
    have hI := muReach_inv hreach (muInv_init p0 n)
    have := hI.le1
    omega
  · intro p0 n X X' lbl hreach hstep hne
    exact muStep_counter_change hstep (muReach_inv hreach (muInv_init p0 n)) hne

theorem mutex_binary_protocol_witness : Mutex.new (7 : Nat) = some ⟨⟨0, 1⟩, 7⟩ :=
  mutex_binary_protocol.1 Nat 7

/-- C6: the guard's destructor performs the semaphore's `wait()` first and
the single `wake_one` second: every completed drop trace is the `wait` trace
— which ends with the successful decrement CAS and contains no wake — followed
by exactly one final `wakeOne`; concretely from the locked state the drop
loads `1`, exchanges `1` for `0`, and only then notifies. -/
theorem guard_release_order :
    (∀ fuel c c' : Nat, ∀ tr : List Event, guardDrop fuel c = some (c', tr) →
        ∃ tr₁ v, tr = tr₁ ++ [Event.casOk .release .relaxed v (dec32 v), Event.wakeOne] ∧
          c' = dec32 v ∧ v ≠ 0 ∧ ∀ e ∈ tr₁, e.isWake = false) ∧
    guardDrop 3 1 =
      some (0, [.load .acquire 1, .casOk .release .relaxed 1 0, .wakeOne]) := by
  constructor
  · intro fuel c c' tr h
    obtain ⟨tr₀, hrun, htr⟩ := guardDrop_eq h
    obtain ⟨tr₁, v, htr₀, hc', hv0⟩ := runWait_cas_last fuel hrun (by simp)
    refine ⟨tr₁, v, ?_, hc', hv0, ?_⟩
    · rw [htr, htr₀, List.append_assoc]
      rfl
    · intro e he
      exact runWait_no_wake fuel hrun e (htr₀ ▸ List.mem_append.2 (Or.inl he))
  · decide

theorem guard_release_order_witness :
    ∃ tr₁ v,
      [Event.load .acquire 1, Event.casOk .release .relaxed 1 0, Event.wakeOne] =
        tr₁ ++ [Event.casOk .release .relaxed v (dec32 v), Event.wakeOne] ∧
      (0 : Nat) = dec32 v ∧ v ≠ 0 ∧ ∀ e ∈ tr₁, e.isWake = false :=
  guard_release_order.1 3 1 0
    [Event.load .acquire 1, Event.casOk .release .relaxed 1 0, Event.wakeOne]
    (by decide)

/-- C7: mutual exclusion and no lost increments: in every reachable state of
any number of threads cycling lock / non-atomic increment / release on one
mutex, at most one thread is accessing the payload, the payload equals its
initial value plus the number of completed increments (one per completed
lock/release cycle — no lost update), and the thread currently between its
read and its write holds the up-to-date payload value (the writes of all
earlier guard holders are visible to it). -/
theorem mutex_mutual_exclusion :
    ∀ (p0 n : Nat) (X : MuSys),
      MuReach ⟨0, p0, List.replicate n ⟨.rest, 0⟩⟩ X →
      countAccess X.threads ≤ 1 ∧
      X.payload = p0 + writeSum X.threads ∧
      (∀ t ∈ X.threads, ∀ r, t.phase = .writing r → r = X.payload) := by
  intro p0 n X hreach
  have hI := muReach_inv hreach (muInv_init p0 n)
  refine ⟨?_, hI.pay, hI.wr⟩
  calc countAccess X.threads ≤ countHold X.threads := countAccess_le_countHold _
    _ = X.counter := hI.hold.symm
    _ ≤ 1 := hI.le1

theorem mutex_mutual_exclusion_witness :
    countAccess (List.replicate 2 (⟨.rest, 0⟩ : MuThread)) ≤ 1 ∧
    (5 : Nat) = 5 + writeSum (List.replicate 2 ⟨.rest, 0⟩) ∧
    (∀ t ∈ List.replicate 2 (⟨.rest, 0⟩ : MuThread), ∀ r,
        t.phase = .writing r → r = 5) :=
  mutex_mutual_exclusion 5 2 ⟨0, 5, List.replicate 2 ⟨.rest, 0⟩⟩
    Relation.ReflTransGen.refl

/-- C8: the code loses wakeups: starting from `Semaphore::init(0, 1)` with
thread A calling `wait()` and thread B calling `signal()`, the system can
reach a state where A is parked inside `wait()` while B's `signal()` has
completed and the counter is `1` (a permit exists); from that state A stays
parked in every reachable future, because neither `signal` nor `wait` ever
issues a wake — a permanent stall, contradicting the claimed liveness. -/
theorem semaphore_lost_wakeup :
    SemReach 1 ⟨0, [Sum.inr .start, Sum.inl .start]⟩
               ⟨1, [Sum.inr .parked, Sum.inl (.done 0)]⟩ ∧
    (∀ X : SemSys, SemReach 1 ⟨1, [Sum.inr .parked, Sum.inl (.done 0)]⟩ X →
        X.threads.head? = some (Sum.inr .parked)) := by
  constructor
  · have s1 : SemStep 1 ⟨0, [Sum.inr .start, Sum.inl .start]⟩
        ⟨0, [Sum.inr (.check 0), Sum.inl .start]⟩ :=
      SemStep.wai [] [Sum.inl .start] 0 0 .start (.check 0)
        (.load .acquire 0) (by decide)
    have s2 : SemStep 1 ⟨0, [Sum.inr (.check 0), Sum.inl .start]⟩
        ⟨0, [Sum.inr .parked, Sum.inl .start]⟩ :=
      SemStep.wai [] [Sum.inl .start] 0 0 (.check 0) .parked
        (.futexWait 0) (by decide)
    have s3 : SemStep 1 ⟨0, [Sum.inr .parked, Sum.inl .start]⟩
        ⟨0, [Sum.inr .parked, Sum.inl (.check 0)]⟩ :=
      SemStep.sig [Sum.inr .parked] [] 0 0 .start (.check 0)
        (.load .acquire 0) (by decide)
    have s4 : SemStep 1 ⟨0, [Sum.inr .parked, Sum.inl (.check 0)]⟩
        ⟨1, [Sum.inr .parked, Sum.inl (.done 0)]⟩ :=
      SemStep.sig [Sum.inr .parked] [] 0 1 (.check 0) (.done 0)
        (.casOk .release .relaxed 0 1) (by decide)
    exact Relation.ReflTransGen.head s1 (Relation.ReflTransGen.head s2
      (Relation.ReflTransGen.head s3 (Relation.ReflTransGen.head s4
        Relation.ReflTransGen.refl)))
  · intro X hreach
    exact semReach_head_stuck hreach rfl (Or.inr rfl)

theorem semaphore_lost_wakeup_witness :
    (⟨1, [Sum.inr .parked, Sum.inl (.done 0)]⟩ : SemSys).threads.head? =
      some (Sum.inr .parked) :=
  semaphore_lost_wakeup.2 ⟨1, [Sum.inr .parked, Sum.inl (.done 0)]⟩
    Relation.ReflTransGen.refl

/-- C9: the CAS arithmetic never wraps: in `signal`, `cur_count + 1` is
computed only on the branch with `cur_count ≠ max`, so under the counter
invariant `observed ≤ max < 2^32` the `u32` increment equals the exact
increment and stays `≤ max`; in `wait`, `cur_count - 1` is computed only on
the branch with `cur_count ≠ 0`, so the `u32` decrement equals the exact
decrement and never underflows. -/
theorem cas_arithmetic_in_range :
    (∀ m c c' cur v : Nat, ∀ e : Event, cur ≤ m → m < U32 →
        sigStep m c (.check cur) = some (c', .done v, e) →
        inc32 cur = cur + 1 ∧ cur + 1 ≤ m) ∧
    (∀ c c' cur v : Nat, ∀ e : Event, cur < U32 →
        waitStep c (.check cur) = some (c', .done v, e) →
        dec32 cur = cur - 1 ∧ 1 ≤ cur) := by
  constructor
  · intro m c c' cur v e hle hU h
    obtain ⟨hs, hvm, -, -, -⟩ := sigStep_done_inv h
    simp only [SigState.check.injEq] at hs
    subst hs
    have : cur < m := lt_of_le_of_ne hle hvm
    exact ⟨inc32_eq (by omega), by omega⟩
  · intro c c' cur v e hU h
    obtain ⟨hs, hv0, -, -, -⟩ := waitStep_done_inv h
    simp only [WaitState.check.injEq] at hs
    subst hs
    exact ⟨dec32_eq hv0 hU, by omega⟩

theorem cas_arithmetic_in_range_witness : inc32 2 = 2 + 1 ∧ 2 + 1 ≤ 3 :=
  cas_arithmetic_in_range.1 3 2 3 2 2 (.casOk .release .relaxed 2 3)
    (by norm_num) (by norm_num [U32]) (by decide)

/-- C10: neither `signal` nor `wait` ever performs a notify (`wake_one` or
`wake_all`); the only wake in the core is the single `wake_one` at the end of
the guard's drop trace; consequently, in a standalone semaphore a thread
parked inside `signal` or `wait` is never woken by any later step of the
other operations. -/
theorem no_wake_in_semaphore_ops :
    (∀ m c : Nat, ∀ s : SigState, ∀ r : Nat × SigState × Event,
        sigStep m c s = some r → r.2.2.isWake = false) ∧
    (∀ c : Nat, ∀ s : WaitState, ∀ r : Nat × WaitState × Event,
        waitStep c s = some r → r.2.2.isWake = false) ∧
    (∀ fuel c c' : Nat, ∀ tr : List Event, guardDrop fuel c = some (c', tr) →
        tr.getLast? = some Event.wakeOne ∧ tr.countP Event.isWake = 1) ∧
    (∀ m : Nat, ∀ X X' : SemSys, ∀ t0 : SemTh, SemReach m X X' →
        X.threads.head? = some t0 →
        t0 = Sum.inl SigState.parked ∨ t0 = Sum.inr WaitState.parked →
        X'.threads.head? = some t0) := by
  refine ⟨?_, ?_, ?_, ?_⟩
  · intro m c s r h
    exact sigStep_no_wake h
  · intro c s r h
    exact waitStep_no_wake h
  · intro fuel c c' tr h
    obtain ⟨tr₀, hrun, htr⟩ := guardDrop_eq h
    have hnw := runWait_no_wake fuel hrun
    constructor
    · rw [htr]
      exact List.getLast?_concat tr₀
    · rw [htr, List.countP_append]
      have h0 : tr₀.countP Event.isWake = 0 := by
        rw [List.countP_eq_zero]
        intro e he
        simp [hnw e he]
      rw [h0]
      rfl
  · intro m X X' t0 hreach hp h0
    exact semReach_head_stuck hreach hp h0

theorem no_wake_in_semaphore_ops_witness :
    ((0 : Nat), SigState.check 0, Event.load .acquire 0).2.2.isWake = false :=
  no_wake_in_semaphore_ops.1 1 0 .start (0, SigState.check 0, Event.load .acquire 0)
    (by decide)
